import Mathlib

/-!
Shallow embedding of the refurb core: the exemplar check
(src/refurb/checks/builtin/list_extend/common.py) and the diagnostic
pipeline (src/refurb/main.py): suppression filtering, ordering, and the
run orchestrator / CLI exit status.
-/

/-- Modelled from the spec: the Diagnostic value type (refurb/error.py is not
under src/).  Fields per section 3 of the spec: `code` (positive integer,
stable identity), a short category tag used for ordering and rendering (the
source calls that field by the Lean keyword for prefix notation, so it is
renamed `pfx` here), `msg`, optional `filename` (unset for diagnostics not yet
stamped by the orchestrator), and 1-indexed `line` / `column`. -/
structure Error where
  code : Nat
  pfx : String
  msg : String
  filename : Option String := none
  line : Int
  column : Int
deriving DecidableEq, Repr

/-- Modelled from the spec: `str(ErrorCode.from_error(type(error)))`
(refurb/error.py is not under src/) renders the category tag followed by the
decimal code, e.g. "FURB113". -/
def errorCodeStr (e : Error) : String := e.pfx ++ toString e.code

/-- From common.py: the `ErrorUseListExtend` dataclass, `code = 113`, fixed
message, constructed positionally with (line, column). -/
def ErrorUseListExtend (line column : Int) : Error :=
  { code := 113, pfx := "FURB",
    msg := "Use `x.extend(...)` instead of repeatedly calling `x.append()`",
    filename := none, line := line, column := column }

/-- The mypy expression shapes that check_stmts distinguishes: a Name
reference, a member access `receiver.methodName`, a call with a callee and
arguments; every other expression kind is collapsed into `otherExpr`. -/
inductive Expr where
  | nameExpr (name : String)
  | memberExpr (expr : Expr) (name : String)
  | callExpr (callee : Expr) (args : List Expr)
  | otherExpr

/-- The mypy statement shapes that check_stmts distinguishes: an expression
statement with its wrapped expression, or any other statement kind; every
statement carries a line and column. -/
inductive Statement where
  | expressionStmt (expr : Expr) (line column : Int)
  | otherStmt (line column : Int)

def Statement.line : Statement → Int
  | .expressionStmt _ l _ => l
  | .otherStmt l _ => l

def Statement.column : Statement → Int
  | .expressionStmt _ _ c => c
  | .otherStmt _ c => c

/-- The match pattern of check_stmts (common.py lines 56-60): an
ExpressionStmt wrapping a CallExpr whose callee is a MemberExpr literally
named "append" on a NameExpr receiver; yields the receiver's identifier. -/
def appendTarget : Statement → Option String
  | .expressionStmt (.callExpr (.memberExpr (.nameExpr n) "append") _) _ _ => some n
  | _ => none

/-- From common.py: the `Last` scan-state dataclass with its defaults. -/
structure Last where
  name : String := ""
  line : Int := 0
  column : Int := 0
  did_error : Bool := false
deriving DecidableEq, Repr

/-- The loop body of check_stmts (common.py lines 52-71), with the mutable
`errors` list rendered as the returned list of appended diagnostics, in
append order.  On a matching statement: emit if `not last.did_error and
name == last.name`, then unconditionally rebase `last`; on any other
statement reset `last` to the dataclass defaults. -/
def check_stmts_go : Last → List Statement → List Error
  | _, [] => []
  | last, stmt :: rest =>
    match appendTarget stmt with
    | some name =>
      if last.did_error = false ∧ name = last.name then
        ErrorUseListExtend last.line last.column ::
          check_stmts_go
            { name := name, line := stmt.line, column := stmt.column, did_error := true } rest
      else
        check_stmts_go
          { name := name, line := stmt.line, column := stmt.column,
            did_error := last.did_error } rest
    | none => check_stmts_go {} rest

/-- check_stmts(stmts, errors): appends the emitted diagnostics to `errors`. -/
def check_stmts (stmts : List Statement) (errors : List Error) : List Error :=
  errors ++ check_stmts_go {} stmts

/-! ### Reference formulation of the exemplar check, from the claim's words

The claims speak of maximal runs of consecutive append statements.  The
following definitions restate the (amended) claimed behaviour in those
words, to be compared with `check_stmts`: statements split into maximal
blocks of consecutive append-call statements; within one block a single
code-113 diagnostic is emitted at the first statement of the earliest
adjacent same-receiver pair (the first statement of the block's earliest
same-receiver run of length at least 2), if such a pair exists. -/

def isApp (s : Statement) : Bool := (appendTarget s).isSome

theorem length_dropWhile_le_gen {α : Type} (p : α → Bool) (l : List α) :
    (l.dropWhile p).length ≤ l.length := by
  induction l with
  | nil => simp [List.dropWhile]
  | cons x xs ih =>
    simp only [List.dropWhile]
    cases p x
    · simp
    · simp
      omega

/-- Location of the first statement of the earliest adjacent same-receiver
append pair, if any. -/
def firstDupS : List Statement → Option (Int × Int)
  | s :: t :: r =>
    if (appendTarget s).isSome ∧ appendTarget s = appendTarget t then
      some (s.line, s.column)
    else firstDupS (t :: r)
  | _ => none

/-- Same search, with a pending previous append statement carried as
(name, anchor line, anchor column); used only to relate the reference
formulation to the scan. -/
def firstDupFrom (n : String) (l c : Int) : List Statement → Option (Int × Int)
  | [] => none
  | s :: ss =>
    if appendTarget s = some n then some (l, c)
    else
      match appendTarget s with
      | some m => firstDupFrom m s.line s.column ss
      | none => none

def dupPart : Option (Int × Int) → List Error
  | some (l, c) => [ErrorUseListExtend l c]
  | none => []

/-- Reference diagnostics: one per maximal block of consecutive append
statements containing an adjacent same-receiver pair, located at the first
statement of the earliest such pair. -/
def specDiags : List Statement → List Error
  | [] => []
  | s :: ss =>
    if isApp s then
      dupPart (firstDupS (s :: ss.takeWhile isApp)) ++ specDiags (ss.dropWhile isApp)
    else specDiags ss
termination_by l => l.length
decreasing_by
  · simp only [List.length_cons]
    have h := length_dropWhile_le_gen isApp ss
    omega
  · simp

/-- No append receiver identifier is the empty string (the scan's "no active
run" sentinel). -/
def goodNames (stmts : List Statement) : Prop :=
  ∀ s ∈ stmts, appendTarget s ≠ some ""

instance : DecidablePred goodNames := fun stmts =>
  List.decidableBAll (fun s => appendTarget s ≠ some "") stmts

/-! ### Suppression filter (main.py: get_source_lines, ignored_via_comment) -/

/-- Python list indexing semantics: a negative index counts from the end,
an index out of range fails. -/
def pyIndex (l : List String) (i : Int) : Option String :=
  let j := if i < 0 then (l.length : Int) + i else i
  if j < 0 then none else l.get? j.toNat

def upperCh (ch : Char) : Bool := 'A' ≤ ch && ch ≤ 'Z'

def digitCh (ch : Char) : Bool := '0' ≤ ch && ch ≤ '9'

/-- The characters of the bare marker "# noqa". -/
def noqaBare : List Char := ['#', ' ', 'n', 'o', 'q', 'a']

/-- The characters of "# noqa: ". -/
def noqaColon : List Char := ['#', ' ', 'n', 'o', 'q', 'a', ':', ' ']

/-- A code tag per the regex `[A-Z]{3,4}\d{3}`: 3 or 4 uppercase ASCII
letters followed by exactly 3 ASCII digits. -/
def tagOk (t : List Char) : Bool :=
  (t.length == 6 || t.length == 7) &&
    (t.take (t.length - 3)).all upperCh && (t.drop (t.length - 3)).all digitCh

/-- One attempt of the pattern `# noqa(: [A-Z]{3,4}\d{3})?$` at a fixed
position, `cs` being the rest of the line from that position.  Because the
pattern is anchored at end of line, it matches here exactly when the whole
rest is "# noqa" (group 1 absent) or "# noqa: " followed by a tag (group 1
= ": " ++ tag).  Returns `some group1` on a match. -/
def matchAt (cs : List Char) : Option (Option (List Char)) :=
  if cs = noqaBare then some none
  else if cs.take 8 = noqaColon ∧ tagOk (cs.drop 8) then some (some (cs.drop 6))
  else none

/-- re.search of the pattern: try each position left to right, return the
group 1 of the leftmost match. -/
def reSearchNoqa : List Char → Option (Option (List Char))
  | [] => none
  | c :: cs =>
    match matchAt (c :: cs) with
    | some g => some g
    | none => reSearchNoqa cs

/-- The verdict of ignored_via_comment once the source line is in hand:
no match keeps the error; a bare marker (group 1 is None, hence falsy)
suppresses; a tagged marker suppresses iff `ignore[2:]` equals the rendered
code string. -/
def noqaVerdict (e : Error) (ln : String) : Bool :=
  match reSearchNoqa ln.toList with
  | none => false
  | some none => true
  | some (some grp) => grp.isEmpty || (String.mk (grp.drop 2) == errorCodeStr e)

/-- An Error-or-raw-message list element, as in `Sequence[Error | str]`. -/
abbrev Item := Sum Error String

/-- ignored_via_comment (main.py lines 61-74).  `src` stands for the cached
`get_source_lines`: the lines of each file, as split by splitlines.  Raw
messages and errors with a falsy filename are never ignored.  The line
lookup `[error.line - 1]` uses Python indexing and its failure (IndexError)
is rendered as `none`. -/
def ignored_via_comment (src : String → List String) : Item → Option Bool
  | Sum.inr _ => some false
  | Sum.inl e =>
    if e.filename.getD "" = "" then some false
    else
      match pyIndex (src (e.filename.getD "")) (e.line - 1) with
      | none => none
      | some ln => some (noqaVerdict e ln)

/-! ### Ordering (main.py: sort_errors) and Python's sorted -/

/-- The key returned by sort_errors: a 2-tuple `("", text)` for a raw
message, the 5-tuple `(filename or "", line, column, prefix-tag, code)` for
an Error. -/
inductive SortKey where
  | ofStr (text : String)
  | ofErr (filename : String) (line column : Int) (pfx : String) (code : Nat)
deriving DecidableEq, Repr

def sort_errors : Item → SortKey
  | Sum.inr s => .ofStr s
  | Sum.inl e => .ofErr (e.filename.getD "") e.line e.column e.pfx e.code

/-- Python's `<` on two strings, character by character by code point. -/
def charListLt : List Char → List Char → Bool
  | [], [] => false
  | [], _ :: _ => true
  | _ :: _, [] => false
  | a :: as, b :: bs => if a < b then true else if b < a then false else charListLt as bs

def strLt (a b : String) : Bool := charListLt a.toList b.toList

/-- Python's lexicographic comparison of two homogeneous 5-tuples. -/
def lexErrLt (f1 : String) (l1 c1 : Int) (p1 : String) (d1 : Nat)
    (f2 : String) (l2 c2 : Int) (p2 : String) (d2 : Nat) : Bool :=
  strLt f1 f2 ||
    (decide (f1 = f2) && (decide (l1 < l2) ||
      (decide (l1 = l2) && (decide (c1 < c2) ||
        (decide (c1 = c2) && (strLt p1 p2 ||
          (decide (p1 = p2) && decide (d1 < d2))))))))

/-- Python's `<` on two sort keys.  Comparing the 2-tuple of a raw message
with the 5-tuple of an Error compares the first components; when both are
the empty string the next comparison is str-versus-int and raises
TypeError, rendered as `none`. -/
def keyLt : SortKey → SortKey → Option Bool
  | .ofStr a, .ofStr b => some (strLt a b)
  | .ofStr _, .ofErr f _ _ _ _ => if f = "" then none else some (strLt "" f)
  | .ofErr f _ _ _ _, .ofStr _ => if f = "" then none else some (strLt f "")
  | .ofErr f1 l1 c1 p1 d1, .ofErr f2 l2 c2 p2 d2 =>
    some (lexErrLt f1 l1 c1 p1 d1 f2 l2 c2 p2 d2)

/-- Stable insertion into an already sorted list, comparing keys with the
partial Python `<` (sorted() compares elements by `key(a) < key(b)` only);
`none` propagates a TypeError. -/
def insertSorted (x : Item) : List Item → Option (List Item)
  | [] => some [x]
  | y :: ys =>
    match keyLt (sort_errors y) (sort_errors x) with
    | none => none
    | some true => (insertSorted x ys).map (y :: ·)
    | some false => some (x :: y :: ys)

/-- Python's sorted(list, key=sort_errors): a stable sort by the key order,
raising (none) whenever it would compare a raw-message key with an
Error key whose filename field is falsy. -/
def pySorted : List Item → Option (List Item)
  | [] => some []
  | x :: xs =>
    match pySorted xs with
    | none => none
    | some s => insertSorted x s

/-! ### Run orchestrator and CLI driver (main.py: run_refurb, main) -/

/-- Modelled from the spec: the Settings fields that main consults
(refurb/settings.py is not under src/); each short-circuit flag is rendered
by its truthiness. -/
structure Settings where
  help : Bool := false
  version : Bool := false
  generate : Bool := false
  explain : Bool := false
  quiet : Bool := false
  debug : Bool := false
deriving DecidableEq, Repr

/-- One entry of the mypy build graph that run_refurb walks: the file's
path and, when parsing produced a tree, the pair of str(tree) and the
diagnostics the visitor collected on that tree. -/
structure FileResult where
  path : String
  tree : Option (String × List Error)
deriving DecidableEq, Repr

/-- The three outcomes of the engine boundary in run_refurb:
process_options raising SystemExit with messages on stderr, build raising
CompileError with its messages, or a completed build graph. -/
inductive BuildOutcome where
  | processExit (msgs : List String)
  | compileError (msgs : List String)
  | built (files : List FileResult)
deriving DecidableEq, Repr

/-- re.sub("^mypy: ", "refurb: ", msg): the pattern is anchored at the start
of the string, so it rewrites a leading "mypy: " when present and leaves the
message alone otherwise. -/
def rewriteMypy (msg : String) : String :=
  if msg.toList.take 6 = ['m', 'y', 'p', 'y', ':', ' ']
  then String.mk ("refurb: ".toList ++ msg.toList.drop 6)
  else msg

/-- The list comprehension `[error for error in errors if not
ignored_via_comment(error)]`, propagating a lookup failure. -/
def filterNotIgnored (src : String → List String) : List Item → Option (List Item)
  | [] => some []
  | e :: es =>
    match ignored_via_comment src e with
    | none => none
    | some b =>
      match filterNotIgnored src es with
      | none => none
      | some rest => some (if b then rest else e :: rest)

/-- The diagnostics gathered from the build graph before filtering: per
file with a tree, str(tree) when --debug is set, then the visitor's errors
stamped with the file's path. -/
def collectErrors (debug : Bool) (files : List FileResult) : List Item :=
  (files.map (fun f =>
    match f.tree with
    | none => []
    | some (treeStr, verrs) =>
      (if debug then [Sum.inr treeStr] else []) ++
        verrs.map (fun e => Sum.inl { e with filename := some f.path }))).flatten

/-- run_refurb (main.py lines 77-120).  A SystemExit from process_options
returns the stderr lines prefixed "refurb: "; a CompileError returns its
messages with a leading "mypy: " rewritten; otherwise the collected
diagnostics are suppression-filtered and sorted. -/
def run_refurb (settings : Settings) (outcome : BuildOutcome)
    (src : String → List String) : Option (List Item) :=
  match outcome with
  | .processExit msgs => some (msgs.map (fun m => Sum.inr ("refurb: " ++ m)))
  | .compileError msgs => some (msgs.map (fun m => Sum.inr (rewriteMypy m)))
  | .built files =>
    match filterNotIgnored src (collectErrors settings.debug files) with
    | none => none
    | some kept => pySorted kept

/-- main (main.py lines 146-179), with printing elided: the returned exit
status.  A settings load failure returns 1; each short-circuit flag returns
0; otherwise the status is 1 exactly when run_refurb's result is nonempty.
An exception escaping run_refurb is rendered as `none`. -/
def main' (loadResult : Except String Settings) (outcome : BuildOutcome)
    (src : String → List String) : Option Int :=
  match loadResult with
  | .error _ => some 1
  | .ok settings =>
    if settings.help then some 0
    else if settings.version then some 0
    else if settings.generate then some 0
    else if settings.explain then some 0
    else
      match run_refurb settings outcome src with
      | none => none
      | some errors => some (if errors.isEmpty then 0 else 1)

/-! ### Equivalence of the scan with the reference formulation -/

theorem specDiags_nil : specDiags [] = [] := by
  simp [specDiags]

theorem specDiags_cons_app (s : Statement) (ss : List Statement) (h : isApp s = true) :
    specDiags (s :: ss) =
      dupPart (firstDupS (s :: ss.takeWhile isApp)) ++ specDiags (ss.dropWhile isApp) := by
  rw [specDiags]
  simp [h]

theorem specDiags_cons_oth (s : Statement) (ss : List Statement) (h : isApp s = false) :
    specDiags (s :: ss) = specDiags ss := by
  rw [specDiags]
  simp [h]

theorem firstDup_rel (s : Statement) (m : String) (l : List Statement)
    (h : appendTarget s = some m) (hall : ∀ x ∈ l, isApp x = true) :
    firstDupS (s :: l) = firstDupFrom m s.line s.column l := by
  induction l generalizing s m with
  | nil => simp [firstDupS, firstDupFrom]
  | cons t r ih =>
    have ht : isApp t = true := hall t (List.mem_cons_self t r)
    obtain ⟨k, hk⟩ : ∃ k, appendTarget t = some k := by
      simpa [isApp, Option.isSome_iff_exists] using ht
    have hall' : ∀ x ∈ r, isApp x = true := fun x hx => hall x (List.mem_cons_of_mem _ hx)
    by_cases hmk : m = k
    · simp [firstDupS, firstDupFrom, h, hk, hmk]
    · rw [firstDupS, firstDupFrom]
      have hcond : ¬((appendTarget s).isSome = true ∧ appendTarget s = appendTarget t) := by
        simp [h, hk]
        intro hc
        exact hmk hc
      have hcond2 : ¬(appendTarget t = some m) := by
        simp [hk]
        intro hc
        exact hmk hc.symm
      rw [if_neg hcond, if_neg hcond2, hk]
      exact ih t k hk hall'

theorem scan_spec (stmts : List Statement) (good : goodNames stmts) :
    (check_stmts_go {} stmts = specDiags stmts)
    ∧ (∀ n l c, n ≠ "" →
        check_stmts_go { name := n, line := l, column := c, did_error := false } stmts =
          dupPart (firstDupFrom n l c (stmts.takeWhile isApp)) ++
            specDiags (stmts.dropWhile isApp))
    ∧ (∀ n l c,
        check_stmts_go { name := n, line := l, column := c, did_error := true } stmts =
          specDiags (stmts.dropWhile isApp)) := by
  induction stmts with
  | nil =>
    refine ⟨by simp [check_stmts_go, specDiags_nil], ?_, ?_⟩
    · intro n l c _
      simp [check_stmts_go, specDiags_nil, firstDupFrom, dupPart]
    · intro n l c
      simp [check_stmts_go, specDiags_nil]
  | cons s ss ih =>
    have good' : goodNames ss := fun x hx => good x (List.mem_cons_of_mem _ hx)
    obtain ⟨ihMain, ihPend, ihErr⟩ := ih good'
    have hallTake : ∀ x ∈ ss.takeWhile isApp, isApp x = true := by
      intro x hx
      exact List.mem_takeWhile_imp hx
    cases h : appendTarget s with
    | some m =>
      have hm : m ≠ "" := by
        intro hco
        exact good s (List.mem_cons_self s ss) (hco ▸ h)
      have happ : isApp s = true := by simp [isApp, h]
      have hTake : (s :: ss).takeWhile isApp = s :: ss.takeWhile isApp := by
        simp [List.takeWhile_cons, happ]
      have hDrop : (s :: ss).dropWhile isApp = ss.dropWhile isApp := by
        simp [List.dropWhile_cons, happ]
      refine ⟨?_, ?_, ?_⟩
      · -- fresh state: no emission since m is nonempty, continue with pending m
        rw [check_stmts_go]
        rw [h]
        simp only []
        rw [if_neg (by
          intro hco
          exact hm hco.2)]
        rw [ihPend m s.line s.column hm]
        rw [specDiags_cons_app s ss happ, firstDup_rel s m (ss.takeWhile isApp) h hallTake]
      · intro n l c hn
        by_cases hmn : m = n
        · -- continuing the run: emit at the pending anchor, state errored
          rw [check_stmts_go, h]
          simp only []
          rw [if_pos (by simp [hmn])]
          rw [ihErr m s.line s.column]
          rw [hTake, hDrop, firstDupFrom]
          rw [if_pos (by rw [h, hmn])]
          simp [dupPart]
        · -- a different receiver: run continues with pending m, nothing emitted
          rw [check_stmts_go, h]
          simp only []
          rw [if_neg (by
            intro hco
            exact hmn hco.2)]
          rw [ihPend m s.line s.column hm]
          rw [hTake, hDrop, firstDupFrom]
          rw [if_neg (by
            rw [h]
            intro hco
            exact hmn (Option.some.inj hco)), h]
      · intro n l c
        rw [check_stmts_go, h]
        simp only []
        rw [if_neg (by
          intro hco
          exact Bool.true_eq_false.mp hco.1)]
        rw [ihErr m s.line s.column, hDrop]
    | none =>
      have happ : isApp s = false := by simp [isApp, h]
      have hTake : (s :: ss).takeWhile isApp = [] := by
        simp [List.takeWhile_cons, happ]
      have hDrop : (s :: ss).dropWhile isApp = s :: ss := by
        simp [List.dropWhile_cons, happ]
      have hspec : specDiags (s :: ss) = specDiags ss := specDiags_cons_oth s ss happ
      refine ⟨?_, ?_, ?_⟩
      · rw [check_stmts_go, h, ihMain, hspec]
      · intro n l c _
        rw [check_stmts_go, h, ihMain, hTake, hDrop, hspec]
        simp [firstDupFrom, dupPart]
      · intro n l c
        rw [check_stmts_go, h, ihMain, hDrop, hspec]

/-! ### Anchoring: every emitted diagnostic sits at the first statement of a
same-receiver run of length at least two -/

/-- The diagnostic `e` is anchored at the first statement of a maximal
same-receiver append run of length at least 2 inside `stmts`: the receiver
of two adjacent statements is the same `n`, and the statement before the
pair (if any) is not an append on `n`. -/
def anchoredAtRun (stmts : List Statement) (e : Error) : Prop :=
  ∃ pre s1 s2 post n, stmts = pre ++ s1 :: s2 :: post ∧
    appendTarget s1 = some n ∧ appendTarget s2 = some n ∧
    e = ErrorUseListExtend s1.line s1.column ∧
    (∀ p, pre.getLast? = some p → appendTarget p ≠ some n)

theorem dropWhile_head_not {α : Type} (p : α → Bool) (l : List α) (x : α) (xs : List α)
    (h : l.dropWhile p = x :: xs) : p x = false := by
  induction l with
  | nil => simp [List.dropWhile] at h
  | cons y ys ih =>
    rw [List.dropWhile_cons] at h
    by_cases hy : p y = true
    · rw [if_pos hy] at h
      exact ih h
    · rw [if_neg hy] at h
      cases h
      simpa using hy

theorem firstDupS_decomp (l : List Statement) (a b : Int)
    (h : firstDupS l = some (a, b)) :
    ∃ pre s1 s2 post n, l = pre ++ s1 :: s2 :: post ∧
      appendTarget s1 = some n ∧ appendTarget s2 = some n ∧
      s1.line = a ∧ s1.column = b ∧
      (∀ p, pre.getLast? = some p → appendTarget p ≠ some n) := by
  induction l with
  | nil => simp [firstDupS] at h
  | cons s tl ih =>
    cases tl with
    | nil => simp [firstDupS] at h
    | cons t r =>
      rw [firstDupS] at h
      by_cases hc : (appendTarget s).isSome = true ∧ appendTarget s = appendTarget t
      · rw [if_pos hc] at h
        obtain ⟨n, hn⟩ : ∃ n, appendTarget s = some n := by
          simpa [Option.isSome_iff_exists] using hc.1
        cases h
        refine ⟨[], s, t, r, n, by simp, hn, by rw [hc.2] at hn; exact hn, rfl, rfl, ?_⟩
        intro p hp
        simp at hp
      · rw [if_neg hc] at h
        obtain ⟨pre, s1, s2, post, n, hsplit, h1, h2, hl, hcn, hlast⟩ := ih h
        refine ⟨s :: pre, s1, s2, post, n, by rw [hsplit]; simp, h1, h2, hl, hcn, ?_⟩
        intro p hp
        cases pre with
        | nil =>
          simp at hp
          subst hp
          -- here s1 is t itself: the failed adjacent test gives the bound
          have hst : t = s1 := by
            simpa using congrArg (fun l => l.head?) hsplit
          intro hps
          apply hc
          refine ⟨by simp [hps], ?_⟩
          rw [hps, hst, h1]
        | cons q pre' =>
          rw [List.getLast?_cons_cons] at hp
          exact hlast p hp

theorem mem_specDiags_bound (N : Nat) :
    ∀ (stmts : List Statement), stmts.length ≤ N →
      ∀ e ∈ specDiags stmts, anchoredAtRun stmts e := by
  induction N with
  | zero =>
    intro stmts hlen e he
    have : stmts = [] := List.eq_nil_of_length_eq_zero (Nat.le_zero.mp hlen)
    rw [this, specDiags_nil] at he
    simp at he
  | succ n ih =>
    intro stmts hlen e he
    cases stmts with
    | nil =>
      rw [specDiags_nil] at he
      simp at he
    | cons s ss =>
      by_cases happ : isApp s = true
      · rw [specDiags_cons_app s ss happ] at he
        have hsplitAll : s :: ss = (s :: ss.takeWhile isApp) ++ ss.dropWhile isApp := by
          simp [List.takeWhile_append_dropWhile]
        rcases List.mem_append.mp he with hdup | hrec
        · -- the diagnostic of this block
          cases hfd : firstDupS (s :: ss.takeWhile isApp) with
          | none => rw [hfd] at hdup; simp [dupPart] at hdup
          | some ab =>
            obtain ⟨a, b⟩ := ab
            rw [hfd] at hdup
            simp [dupPart] at hdup
            obtain ⟨pre, s1, s2, post, m, hsp, h1, h2, hl, hc, hlast⟩ :=
              firstDupS_decomp _ a b hfd
            refine ⟨pre, s1, s2, post ++ ss.dropWhile isApp, m, ?_, h1, h2, ?_, hlast⟩
            · rw [hsplitAll, hsp]
              simp
            · rw [hdup, hl, hc]
        · -- a diagnostic of a later block
          have hlen' : (ss.dropWhile isApp).length ≤ n := by
            have h1 := length_dropWhile_le_gen isApp ss
            simp at hlen
            omega
          obtain ⟨pre, s1, s2, post, m, hsp, h1, h2, heq, hlast⟩ :=
            ih (ss.dropWhile isApp) hlen' e hrec
          refine ⟨(s :: ss.takeWhile isApp) ++ pre, s1, s2, post, m, ?_, h1, h2, heq, ?_⟩
          · rw [hsplitAll, hsp]
            simp
          · intro p hp
            cases hpre : pre with
            | nil =>
              -- then s1 heads the dropWhile, so it cannot be an append
              subst hpre
              have hhead : ss.dropWhile isApp = s1 :: (s2 :: post) := by simpa using hsp
              have hfalse : isApp s1 = false := dropWhile_head_not isApp ss s1 (s2 :: post) hhead
              simp [isApp, h1] at hfalse
            | cons q pre' =>
              subst hpre
              rw [List.getLast?_append] at hp
              have hq : (q :: pre').getLast? = some p := by
                cases hql : (q :: pre').getLast? with
                | none => simp at hql
                | some z => rw [hql] at hp; simpa using hp
              exact hlast p hq
      · have happf : isApp s = false := by simpa using happ
        rw [specDiags_cons_oth s ss happf] at he
        have hlen' : ss.length ≤ n := by simp at hlen; omega
        obtain ⟨pre, s1, s2, post, m, hsp, h1, h2, heq, hlast⟩ := ih ss hlen' e he
        refine ⟨s :: pre, s1, s2, post, m, by rw [hsp]; simp, h1, h2, heq, ?_⟩
        intro p hp
        cases hpre : pre with
        | nil =>
          subst hpre
          simp at hp
          subst hp
          intro hps
          simp [isApp, hps] at happf
        | cons q pre' =>
          subst hpre
          rw [List.getLast?_cons_cons] at hp
          exact hlast p hp

/-! ### The end-anchored noqa pattern: leftmost search characterisation -/

theorem tagOk_length (t : List Char) (h : tagOk t = true) :
    t.length = 6 ∨ t.length = 7 := by
  simp only [tagOk, Bool.and_eq_true, Bool.or_eq_true, beq_iff_eq] at h
  exact h.1.1

theorem noqaColon_drop (r : List Char) : (noqaColon ++ r).drop 6 = [':', ' '] ++ r := rfl

theorem matchAt_shape (cs : List Char) (g : Option (List Char)) (h : matchAt cs = some g) :
    (cs = noqaBare ∧ g = none) ∨
      (∃ t, tagOk t = true ∧ cs = noqaColon ++ t ∧ g = some ([':', ' '] ++ t)) := by
  unfold matchAt at h
  split_ifs at h with h1 h2
  · left
    cases h
    exact ⟨h1, rfl⟩
  · right
    have hcs : cs = noqaColon ++ cs.drop 8 := by
      conv_lhs => rw [← List.take_append_drop 8 cs]
      rw [h2.1]
    have h6 : cs.drop 6 = [':', ' '] ++ cs.drop 8 := by
      nth_rewrite 1 [hcs]
      exact noqaColon_drop _
    have hg : g = some (cs.drop 6) := (Option.some.inj h).symm
    exact ⟨cs.drop 8, h2.2, hcs, by rw [hg, h6]⟩

theorem matchAt_bare : matchAt noqaBare = some none := by decide

theorem matchAt_tagged (t : List Char) (ht : tagOk t = true) :
    matchAt (noqaColon ++ t) = some (some ([':', ' '] ++ t)) := by
  have hne : noqaColon ++ t ≠ noqaBare := by
    intro h
    have := congrArg List.length h
    simp [noqaColon, noqaBare] at this
  have h8 : noqaColon.length = 8 := by decide
  have htake : (noqaColon ++ t).take 8 = noqaColon := by
    rw [← h8, List.take_left]
  have hdrop : (noqaColon ++ t).drop 8 = t := by
    rw [← h8, List.drop_left]
  unfold matchAt
  rw [if_neg hne, if_pos (by rw [htake, hdrop]; exact ⟨rfl, ht⟩), noqaColon_drop]

theorem matchAt_unique (x m : List Char) (g1 g2 : Option (List Char))
    (h1 : matchAt (x ++ m) = some g1) (h2 : matchAt m = some g2) : x = [] := by
  rcases matchAt_shape _ _ h1 with ⟨e1, _⟩ | ⟨t1, ht1, e1, _⟩ <;>
    rcases matchAt_shape _ _ h2 with ⟨e2, _⟩ | ⟨t2, ht2, e2, _⟩ <;>
    have l1 := congrArg List.length e1 <;>
    have l2 := congrArg List.length e2
  · -- both bare
    simp [noqaBare] at l1 l2
    have : x.length = 0 := by omega
    exact List.eq_nil_of_length_eq_zero this
  · -- whole bare, suffix tagged: impossible by length
    rcases tagOk_length t2 ht2 with hl | hl <;>
      · simp [noqaBare, noqaColon, hl] at l1 l2
        omega
  · -- whole tagged, suffix bare
    have hxge : 8 ≤ x.length := by
      rcases tagOk_length t1 ht1 with hl | hl <;>
        · simp [noqaBare, noqaColon, hl] at l1 l2
          omega
    have hm : m = t1.drop (x.length - 8) := by
      have hd : m = (x ++ m).drop x.length := by rw [List.drop_left]
      rw [e1, List.drop_append_eq_append_drop] at hd
      have h8 : noqaColon.length = 8 := by decide
      have hnil : noqaColon.drop x.length = [] := by
        apply List.drop_eq_nil_of_le
        rw [h8]
        omega
      rw [h8, hnil] at hd
      simpa using hd
    rcases tagOk_length t1 ht1 with hl | hl
    · -- then x has 8 elements and t1 would be the bare marker, not a tag
      have hx8 : x.length = 8 := by
        simp [noqaBare, noqaColon, hl] at l1 l2
        omega
      rw [hx8] at hm
      simp at hm
      rw [e2] at hm
      rw [← hm] at ht1
      exact absurd ht1 (by decide)
    · -- then x has 9 elements and t1 would be the bare marker led by one char
      have hx9 : x.length = 9 := by
        simp [noqaBare, noqaColon, hl] at l1 l2
        omega
      rw [hx9] at hm
      cases t1 with
      | nil => simp at hl
      | cons a r =>
        simp at hm
        rw [e2] at hm
        rw [← hm] at ht1
        simp [tagOk, noqaBare, upperCh] at ht1
  · -- both tagged
    have hx01 : x.length = 0 ∨ x.length = 1 := by
      rcases tagOk_length t1 ht1 with ha | ha <;> rcases tagOk_length t2 ht2 with hb | hb <;>
        · simp [noqaColon, ha, hb] at l1 l2
          omega
    rcases hx01 with hx | hx
    · exact List.eq_nil_of_length_eq_zero hx
    · obtain ⟨a, ha⟩ := List.length_eq_one.mp hx
      rw [ha, e2] at e1
      simp [noqaColon] at e1

theorem reSearch_complete (x m : List Char) (g : Option (List Char))
    (hm : matchAt m = some g) : reSearchNoqa (x ++ m) = some g := by
  induction x with
  | nil =>
    cases m with
    | nil => exact Option.noConfusion hm
    | cons c cs =>
      rw [List.nil_append, reSearchNoqa, hm]
  | cons c x' ih =>
    rw [List.cons_append, reSearchNoqa]
    cases hma : matchAt (c :: (x' ++ m)) with
    | some g' =>
      have hnil : c :: x' = [] := matchAt_unique (c :: x') m g' g hma hm
      exact absurd hnil (by simp)
    | none => exact ih

theorem reSearch_sound (cs : List Char) (g : Option (List Char))
    (h : reSearchNoqa cs = some g) : ∃ x m, cs = x ++ m ∧ matchAt m = some g := by
  induction cs with
  | nil => exact Option.noConfusion h
  | cons c cs' ih =>
    rw [reSearchNoqa] at h
    cases hma : matchAt (c :: cs') with
    | some g' =>
      rw [hma] at h
      cases h
      exact ⟨[], c :: cs', rfl, hma⟩
    | none =>
      rw [hma] at h
      obtain ⟨x, m, hxm, hmm⟩ := ih h
      exact ⟨c :: x, m, by rw [List.cons_append, hxm], hmm⟩

theorem reSearch_bare (pre : List Char) : reSearchNoqa (pre ++ noqaBare) = some none :=
  reSearch_complete pre noqaBare none matchAt_bare

theorem reSearch_tagged (pre t : List Char) (ht : tagOk t = true) :
    reSearchNoqa (pre ++ (noqaColon ++ t)) = some (some ([':', ' '] ++ t)) :=
  reSearch_complete pre (noqaColon ++ t) (some ([':', ' '] ++ t)) (matchAt_tagged t ht)

theorem noqaVerdict_bare (e : Error) (ln : String) (pre : List Char)
    (h : ln.toList = pre ++ noqaBare) : noqaVerdict e ln = true := by
  rw [noqaVerdict, h, reSearch_bare]

theorem noqaVerdict_tagged (e : Error) (ln : String) (pre t : List Char)
    (h : ln.toList = pre ++ (noqaColon ++ t)) (ht : tagOk t = true) :
    noqaVerdict e ln = (String.mk t == errorCodeStr e) := by
  rw [noqaVerdict, h, reSearch_tagged pre t ht]
  have hne : ([':', ' '] ++ t).isEmpty = false := by simp [List.isEmpty]
  simp only [hne, List.drop_append_eq_append_drop]
  simp

theorem ignored_via_comment_inl (e : Error) (src : String → List String) :
    ignored_via_comment src (Sum.inl e) =
      if e.filename.getD "" = "" then some false
      else
        match pyIndex (src (e.filename.getD "")) (e.line - 1) with
        | none => none
        | some ln => some (noqaVerdict e ln) := rfl

theorem ignored_line (e : Error) (f : String) (src : String → List String) (ln : String)
    (hf : e.filename = some f) (hne : f ≠ "")
    (hl : pyIndex (src f) (e.line - 1) = some ln) :
    ignored_via_comment src (Sum.inl e) = some (noqaVerdict e ln) := by
  rw [ignored_via_comment_inl, hf]
  simp only [Option.getD_some]
  rw [if_neg hne, hl]

theorem ignored_fail (e : Error) (f : String) (src : String → List String)
    (hf : e.filename = some f) (hne : f ≠ "")
    (hl : pyIndex (src f) (e.line - 1) = none) :
    ignored_via_comment src (Sum.inl e) = none := by
  rw [ignored_via_comment_inl, hf]
  simp only [Option.getD_some]
  rw [if_neg hne, hl]

theorem pyIndex_none_of_ge (l : List String) (i : Int) (h : (l.length : Int) ≤ i) :
    pyIndex l i = none := by
  have h0 : 0 ≤ i := le_trans (Int.ofNat_nonneg _) h
  rw [pyIndex]
  rw [if_neg (show ¬i < 0 by omega)]
  rw [if_neg (show ¬i < 0 by omega)]
  exact List.get?_eq_none.mpr (by omega)

theorem pyIndex_neg_one (l : List String) (h : l ≠ []) :
    pyIndex l (-1) = l.getLast? := by
  have hlen : 1 ≤ l.length := List.length_pos.mpr h
  rw [pyIndex]
  rw [if_pos (show (-1 : Int) < 0 by omega)]
  rw [if_neg (show ¬(l.length : Int) + (-1) < 0 by omega)]
  rw [List.getLast?_eq_get?]
  congr 1
  omega

theorem pyIndex_in_range (l : List String) (i : Int) (h0 : 0 ≤ i) :
    pyIndex l i = l.get? i.toNat := by
  rw [pyIndex]
  rw [if_neg (show ¬i < 0 by omega)]
  rw [if_neg (show ¬i < 0 by omega)]

/-! ### The key order: bridge to a lexicographic linear order -/

theorem charListLt_iff (as bs : List Char) : charListLt as bs = true ↔ as < bs := by
  induction as generalizing bs with
  | nil =>
    cases bs with
    | nil =>
      simp [charListLt]
    | cons b bs' =>
      simp [charListLt]
      exact List.nil_lt_cons b bs'
  | cons a as' ih =>
    cases bs with
    | nil =>
      simp [charListLt]
    | cons b bs' =>
      rw [charListLt]
      by_cases hab : a < b
      · simp only [if_pos hab, true_iff]
        exact List.Lex.rel hab
      · by_cases hba : b < a
        · simp only [if_neg hab, if_pos hba]
          constructor
          · intro h
            exact Bool.noConfusion h
          · intro h
            cases h with
            | rel h' => exact absurd h' hab
            | cons h' => exact absurd hba (lt_irrefl a)
        · have heq : a = b := le_antisymm (not_lt.mp hba) (not_lt.mp hab)
          subst heq
          simp only [if_neg hab, if_neg hba, ih]
          constructor
          · intro h
            exact List.Lex.cons h
          · intro h
            exact (List.Lex.cons_iff).mp h

theorem strings_toList_inj (s t : String) (h : s.toList = t.toList) : s = t := by
  cases s with
  | mk d1 =>
    cases t with
    | mk d2 => exact congrArg String.mk (by simpa [String.toList] using h)

theorem strLt_iff (s t : String) : strLt s t = true ↔ s < t := by
  rw [strLt, charListLt_iff, String.lt_iff_toList_lt]

theorem strLt_empty_left (f : String) (h : f ≠ "") : strLt "" f = true := by
  rw [strLt]
  cases hf : f.toList with
  | nil => exact absurd (strings_toList_inj f "" hf) h
  | cons c cs => rfl

theorem strLt_empty_right (f : String) : strLt f "" = false := by
  rw [strLt]
  cases f.toList with
  | nil => rfl
  | cons c cs => rfl

/-- A linearly ordered mirror of the Error 5-tuple key, for order
reasoning. -/
abbrev ErrKey := Lex (String × Lex (Int × Lex (Int × Lex (String × Nat))))

def errKey (f : String) (l c : Int) (p : String) (d : Nat) : ErrKey :=
  toLex (f, toLex (l, toLex (c, toLex (p, d))))

theorem lexErrLt_iff (f1 : String) (l1 c1 : Int) (p1 : String) (d1 : Nat)
    (f2 : String) (l2 c2 : Int) (p2 : String) (d2 : Nat) :
    lexErrLt f1 l1 c1 p1 d1 f2 l2 c2 p2 d2 = true ↔
      errKey f1 l1 c1 p1 d1 < errKey f2 l2 c2 p2 d2 := by
  rw [errKey, errKey]
  rw [Prod.Lex.lt_iff, Prod.Lex.lt_iff, Prod.Lex.lt_iff, Prod.Lex.lt_iff]
  simp [lexErrLt, strLt_iff]

theorem errKey_inj (f1 : String) (l1 c1 : Int) (p1 : String) (d1 : Nat)
    (f2 : String) (l2 c2 : Int) (p2 : String) (d2 : Nat)
    (h : errKey f1 l1 c1 p1 d1 = errKey f2 l2 c2 p2 d2) :
    f1 = f2 ∧ l1 = l2 ∧ c1 = c2 ∧ p1 = p2 ∧ d1 = d2 := by
  rw [errKey, errKey, toLex_inj, Prod.mk.injEq, toLex_inj, Prod.mk.injEq, toLex_inj,
    Prod.mk.injEq, toLex_inj, Prod.mk.injEq] at h
  tauto

theorem keyLt_asymm (a b : SortKey) (h : keyLt a b = some true) : keyLt b a = some false := by
  cases a with
  | ofStr s =>
    cases b with
    | ofStr t =>
      simp only [keyLt, Option.some.injEq] at h ⊢
      rw [strLt_iff] at h
      rw [Bool.eq_false_iff]
      intro hc
      rw [strLt_iff] at hc
      exact lt_asymm h hc
    | ofErr f l c p d =>
      by_cases hf : f = ""
      · rw [keyLt, if_pos hf] at h
        exact Option.noConfusion h
      · rw [keyLt, if_neg hf]
        rw [strLt_empty_right]
  | ofErr f l c p d =>
    cases b with
    | ofStr t =>
      by_cases hf : f = ""
      · rw [keyLt, if_pos hf] at h
        exact Option.noConfusion h
      · rw [keyLt, if_neg hf, strLt_empty_right] at h
        simp at h
    | ofErr f2 l2 c2 p2 d2 =>
      simp only [keyLt, Option.some.injEq] at h ⊢
      rw [lexErrLt_iff] at h
      rw [Bool.eq_false_iff]
      intro hc
      rw [lexErrLt_iff] at hc
      exact lt_asymm h hc

theorem keyLt_antisymm (a b : SortKey) (h1 : keyLt a b = some false)
    (h2 : keyLt b a = some false) : a = b := by
  cases a with
  | ofStr s =>
    cases b with
    | ofStr t =>
      simp only [keyLt, Option.some.injEq] at h1 h2
      rw [Bool.eq_false_iff] at h1 h2
      rw [Ne, strLt_iff] at h1 h2
      have : s = t := le_antisymm (not_lt.mp h2) (not_lt.mp h1)
      rw [this]
    | ofErr f l c p d =>
      by_cases hf : f = ""
      · rw [keyLt, if_pos hf] at h1
        exact Option.noConfusion h1
      · rw [keyLt, if_neg hf, strLt_empty_left f hf] at h1
        simp at h1
  | ofErr f l c p d =>
    cases b with
    | ofStr t =>
      by_cases hf : f = ""
      · rw [keyLt, if_pos hf] at h2
        exact Option.noConfusion h2
      · rw [keyLt, if_neg hf, strLt_empty_left f hf] at h2
        simp at h2
    | ofErr f2 l2 c2 p2 d2 =>
      simp only [keyLt, Option.some.injEq] at h1 h2
      rw [Bool.eq_false_iff] at h1 h2
      rw [Ne, lexErrLt_iff] at h1 h2
      have hk : errKey f l c p d = errKey f2 l2 c2 p2 d2 :=
        le_antisymm (not_lt.mp h2) (not_lt.mp h1)
      obtain ⟨e1, e2, e3, e4, e5⟩ := errKey_inj _ _ _ _ _ _ _ _ _ _ hk
      rw [e1, e2, e3, e4, e5]

theorem keyLt_false_trans (a b c : SortKey) (h1 : keyLt a b = some false)
    (h2 : keyLt b c = some false) : keyLt a c = some false := by
  cases a with
  | ofStr s1 =>
    cases b with
    | ofStr s2 =>
      cases c with
      | ofStr s3 =>
        simp only [keyLt, Option.some.injEq] at h1 h2 ⊢
        rw [Bool.eq_false_iff] at h1 h2 ⊢
        rw [Ne, strLt_iff] at h1 h2 ⊢
        intro hc
        exact absurd (lt_of_lt_of_le hc (le_trans (not_lt.mp h2) (not_lt.mp h1))) (lt_irrefl s1)
      | ofErr f3 l3 c3 p3 d3 =>
        by_cases hf : f3 = ""
        · rw [keyLt, if_pos hf] at h2
          exact Option.noConfusion h2
        · rw [keyLt, if_neg hf, strLt_empty_left f3 hf] at h2
          simp at h2
    | ofErr f2 l2 c2 p2 d2 =>
      by_cases hf : f2 = ""
      · rw [keyLt, if_pos hf] at h1
        exact Option.noConfusion h1
      · rw [keyLt, if_neg hf, strLt_empty_left f2 hf] at h1
        simp at h1
  | ofErr f1 l1 c1 p1 d1 =>
    cases b with
    | ofStr s2 =>
      have hf1 : f1 ≠ "" := by
        intro hco
        rw [keyLt, if_pos hco] at h1
        exact Option.noConfusion h1
      cases c with
      | ofStr s3 =>
        rw [keyLt, if_neg hf1, strLt_empty_right]
      | ofErr f3 l3 c3 p3 d3 =>
        by_cases hf : f3 = ""
        · rw [keyLt, if_pos hf] at h2
          exact Option.noConfusion h2
        · rw [keyLt, if_neg hf, strLt_empty_left f3 hf] at h2
          simp at h2
    | ofErr f2 l2 c2 p2 d2 =>
      cases c with
      | ofStr s3 =>
        have hf2 : f2 ≠ "" := by
          intro hco
          rw [keyLt, if_pos hco] at h2
          exact Option.noConfusion h2
        have hf1 : f1 ≠ "" := by
          intro hco
          simp only [keyLt, Option.some.injEq] at h1
          rw [Bool.eq_false_iff, Ne, lexErrLt_iff] at h1
          apply h1
          rw [errKey, errKey, Prod.Lex.lt_iff]
          left
          rw [hco]
          exact (strLt_iff "" f2).mp (strLt_empty_left f2 hf2)
        rw [keyLt, if_neg hf1, strLt_empty_right]
      | ofErr f3 l3 c3 p3 d3 =>
        simp only [keyLt, Option.some.injEq] at h1 h2 ⊢
        rw [Bool.eq_false_iff] at h1 h2 ⊢
        rw [Ne, lexErrLt_iff] at h1 h2 ⊢
        intro hc
        exact absurd (lt_of_lt_of_le hc (le_trans (not_lt.mp h2) (not_lt.mp h1)))
          (lt_irrefl (errKey f1 l1 c1 p1 d1))

theorem keyLt_false_total (a b : SortKey) (h : keyLt a b = some false) (hne : a ≠ b) :
    keyLt b a = some true := by
  cases a with
  | ofStr s =>
    cases b with
    | ofStr t =>
      simp only [keyLt, Option.some.injEq] at h ⊢
      rw [Bool.eq_false_iff, Ne, strLt_iff] at h
      rw [strLt_iff]
      have hst : s ≠ t := by
        intro hco
        exact hne (by rw [hco])
      exact lt_of_le_of_ne (not_lt.mp h) (Ne.symm hst)
    | ofErr f l c p d =>
      by_cases hf : f = ""
      · rw [keyLt, if_pos hf] at h
        exact Option.noConfusion h
      · rw [keyLt, if_neg hf, strLt_empty_left f hf] at h
        simp at h
  | ofErr f l c p d =>
    cases b with
    | ofStr t =>
      have hf : f ≠ "" := by
        intro hco
        rw [keyLt, if_pos hco] at h
        exact Option.noConfusion h
      rw [keyLt, if_neg hf, strLt_empty_left f hf]
    | ofErr f2 l2 c2 p2 d2 =>
      simp only [keyLt, Option.some.injEq] at h ⊢
      rw [Bool.eq_false_iff, Ne, lexErrLt_iff] at h
      rw [lexErrLt_iff]
      have hks : errKey f l c p d ≠ errKey f2 l2 c2 p2 d2 := by
        intro hco
        obtain ⟨e1, e2, e3, e4, e5⟩ := errKey_inj _ _ _ _ _ _ _ _ _ _ hco
        exact hne (by rw [e1, e2, e3, e4, e5])
      exact lt_of_le_of_ne (not_lt.mp h) (Ne.symm hks)

/-- Every Error in play carries a truthy filename (raw messages are always
fine); exactly the situation in which Python's key comparison is total. -/
def niceItem : Item → Prop
  | Sum.inl e => e.filename.getD "" ≠ ""
  | Sum.inr _ => True

instance : DecidablePred niceItem := fun x =>
  match x with
  | Sum.inl e => (inferInstance : Decidable (e.filename.getD "" ≠ ""))
  | Sum.inr _ => (inferInstance : Decidable True)

instance (p : Item → Prop) [DecidablePred p] (l : List Item) :
    Decidable (∀ x ∈ l, p x) :=
  List.decidableBAll p l

/-- The after-sort order: `a` may precede `b` because b's key is not below
a's. -/
def itemOrd (a b : Item) : Prop := keyLt (sort_errors b) (sort_errors a) = some false

theorem keyLt_nice (x y : Item) (hx : niceItem x) (hy : niceItem y) :
    ∃ v, keyLt (sort_errors x) (sort_errors y) = some v := by
  cases x with
  | inl e =>
    cases y with
    | inl e2 => exact ⟨_, rfl⟩
    | inr s =>
      have hf : e.filename.getD "" ≠ "" := hx
      exact ⟨_, by rw [sort_errors, sort_errors, keyLt, if_neg hf]⟩
  | inr s =>
    cases y with
    | inl e2 =>
      have hf : e2.filename.getD "" ≠ "" := hy
      exact ⟨_, by rw [sort_errors, sort_errors, keyLt, if_neg hf]⟩
    | inr s2 => exact ⟨_, rfl⟩

theorem insertSorted_nice (x : Item) (l : List Item) (hx : niceItem x)
    (hl : ∀ y ∈ l, niceItem y) :
    ∃ out, insertSorted x l = some out ∧ out.Perm (x :: l) ∧
      (List.Sorted itemOrd l → List.Sorted itemOrd out) := by
  induction l with
  | nil => exact ⟨[x], rfl, List.Perm.refl _, fun _ => List.sorted_singleton x⟩
  | cons y ys ih =>
    obtain ⟨v, hv⟩ := keyLt_nice y x (hl y (List.mem_cons_self y ys)) hx
    cases v with
    | false =>
      refine ⟨x :: y :: ys, by rw [insertSorted, hv], List.Perm.refl _, ?_⟩
      intro hs
      apply List.Pairwise.cons ?_ hs
      intro z hz
      rcases List.mem_cons.mp hz with rfl | hzys
      · exact hv
      · exact keyLt_false_trans _ _ _ (List.rel_of_sorted_cons hs z hzys) hv
    | true =>
      have hys : ∀ z ∈ ys, niceItem z := fun z hz => hl z (List.mem_cons_of_mem _ hz)
      obtain ⟨out', hout', hperm', hsort'⟩ := ih hys
      refine ⟨y :: out', ?_, ?_, ?_⟩
      · rw [insertSorted, hv, hout']
        rfl
      · exact (List.Perm.cons y hperm').trans (List.Perm.swap x y ys)
      · intro hs
        apply List.Pairwise.cons ?_ (hsort' hs.of_cons)
        intro z hz
        have hz' : z ∈ x :: ys := hperm'.subset hz
        rcases List.mem_cons.mp hz' with rfl | hzys
        · exact keyLt_asymm _ _ hv
        · exact List.rel_of_sorted_cons hs z hzys

theorem pySorted_nice (l : List Item) (hl : ∀ y ∈ l, niceItem y) :
    ∃ out, pySorted l = some out ∧ out.Perm l ∧ List.Sorted itemOrd out := by
  induction l with
  | nil => exact ⟨[], rfl, List.Perm.refl _, List.sorted_nil⟩
  | cons x xs ih =>
    obtain ⟨s, hs, hperm, hsort⟩ := ih (fun y hy => hl y (List.mem_cons_of_mem _ hy))
    have hsn : ∀ y ∈ s, niceItem y := fun y hy =>
      hl y (List.mem_cons_of_mem _ (hperm.subset hy))
    obtain ⟨out, hout, hperm2, hsort2⟩ :=
      insertSorted_nice x s (hl x (List.mem_cons_self x xs)) hsn
    refine ⟨out, ?_, ?_, hsort2 hsort⟩
    · rw [pySorted, hs]
      exact hout
    · exact hperm2.trans (List.Perm.cons x hperm)

theorem pySorted_sorted_id (l : List Item) (h : List.Sorted itemOrd l) :
    pySorted l = some l := by
  induction l with
  | nil => rfl
  | cons x xs ih =>
    rw [pySorted, ih h.of_cons]
    cases xs with
    | nil => rfl
    | cons y ys =>
      have hxy : itemOrd x y := List.rel_of_sorted_cons h y (List.mem_cons_self y ys)
      show insertSorted x (y :: ys) = some (x :: y :: ys)
      simp only [insertSorted]
      rw [show keyLt (sort_errors y) (sort_errors x) = some false from hxy]

theorem sorted_split (out : List Item) (hn : ∀ y ∈ out, niceItem y)
    (h : List.Sorted itemOrd out) :
    ∃ (rs : List String) (es : List Error),
      out = rs.map Sum.inr ++ es.map Sum.inl ∧
      List.Sorted (fun a b : String => a ≤ b) rs := by
  induction out with
  | nil => exact ⟨[], [], rfl, List.sorted_nil⟩
  | cons x xs ih =>
    obtain ⟨rs', es', hsplit, hsort'⟩ :=
      ih (fun y hy => hn y (List.mem_cons_of_mem _ hy)) h.of_cons
    cases x with
    | inr s =>
      refine ⟨s :: rs', es', by rw [hsplit]; rfl, ?_⟩
      apply List.Pairwise.cons ?_ hsort'
      intro r hr
      have hmem : (Sum.inr r : Item) ∈ xs := by
        rw [hsplit]
        exact List.mem_append_left _ (List.mem_map_of_mem _ hr)
      have hord : itemOrd (Sum.inr s) (Sum.inr r) := List.rel_of_sorted_cons h _ hmem
      simp only [itemOrd, sort_errors, keyLt, Option.some.injEq] at hord
      rw [Bool.eq_false_iff, Ne, strLt_iff] at hord
      exact not_lt.mp hord
    | inl e =>
      have hrs : rs' = [] := by
        cases hrs' : rs' with
        | nil => rfl
        | cons r rest =>
          have hmem : (Sum.inr r : Item) ∈ xs := by
            rw [hsplit, hrs']
            exact List.mem_append_left _ (List.mem_map_of_mem _ (List.mem_cons_self r rest))
          have hord : itemOrd (Sum.inl e) (Sum.inr r) := List.rel_of_sorted_cons h _ hmem
          simp only [itemOrd, sort_errors, keyLt] at hord
          by_cases hf : e.filename.getD "" = ""
          · rw [if_pos hf] at hord
            exact Option.noConfusion hord
          · rw [if_neg hf, strLt_empty_left _ hf] at hord
            simp at hord
      subst hrs
      exact ⟨[], e :: es', by rw [hsplit]; rfl, List.sorted_nil⟩

/-- The strict key order on items. -/
def itemLt (a b : Item) : Prop := keyLt (sort_errors a) (sort_errors b) = some true

instance : IsAntisymm Item itemLt where
  antisymm a b h1 h2 := by
    have hc := keyLt_asymm _ _ h1
    rw [h2] at hc
    simp at hc

theorem sorted_strict (out : List Item) (h : List.Sorted itemOrd out)
    (hd : out.Pairwise (fun a b => sort_errors a ≠ sort_errors b)) :
    List.Sorted itemLt out := by
  apply (h.and hd).imp
  intro a b hab
  exact keyLt_false_total _ _ hab.1 (Ne.symm hab.2)

/-! ### Claim theorems -/

/-- An expression statement calling `.append` on a plain name, for concrete
examples. -/
def appendStmt (n : String) (l c : Int) : Statement :=
  Statement.expressionStmt (Expr.callExpr (Expr.memberExpr (Expr.nameExpr n) "append") []) l c

/-- C1 counterexample: the claim as stated fails on the code twice over.
(1) Two adjacent maximal runs of length 2 on different receivers
(`x.append; x.append; y.append; y.append`) produce one single diagnostic,
not one per run: the scan's `did_error` flag survives a receiver change
because only a non-matching statement resets the `Last` state.
(2) A single append statement (k = 1) on a receiver whose identifier is the
empty string, placed at the start of a block, produces a diagnostic, because
the empty string is also the scan's "no active run" sentinel. -/
theorem c1_counterexample :
    check_stmts [appendStmt "x" 1 0, appendStmt "x" 2 0,
        appendStmt "y" 3 0, appendStmt "y" 4 0] [] = [ErrorUseListExtend 1 0] ∧
    check_stmts [appendStmt "" 1 0] [] = [ErrorUseListExtend 0 0] :=
  ⟨rfl, rfl⟩

/-- C1 (amended): provided every append receiver identifier is nonempty,
check_stmts emits exactly the diagnostics of `specDiags`: per maximal block
of consecutive append-call statements, one code-113 diagnostic if the block
contains an adjacent same-receiver pair — located at the first statement of
the earliest such pair, i.e. at the first statement of the block's earliest
same-receiver run of length at least 2 — and none otherwise.  In particular
an isolated run of length 1 emits nothing, a run of length k at least 2
emits exactly one diagnostic when no other same-receiver repetition
precedes it in its block, and blocks separated by a non-matching statement
are independent. -/
theorem c1_run_diagnostics (stmts : List Statement) (errors : List Error)
    (good : goodNames stmts) :
    check_stmts stmts errors = errors ++ specDiags stmts := by
  rw [check_stmts, (scan_spec stmts good).1]

/-- C1 witness: spec scenario C. -/
theorem c1_run_diagnostics_witness :
    goodNames [appendStmt "x" 1 0, appendStmt "x" 2 0, Statement.otherStmt 3 0,
      appendStmt "x" 4 0, appendStmt "x" 5 0] ∧
    check_stmts [appendStmt "x" 1 0, appendStmt "x" 2 0, Statement.otherStmt 3 0,
        appendStmt "x" 4 0, appendStmt "x" 5 0] [] =
      [] ++ specDiags [appendStmt "x" 1 0, appendStmt "x" 2 0, Statement.otherStmt 3 0,
        appendStmt "x" 4 0, appendStmt "x" 5 0] :=
  ⟨by decide, c1_run_diagnostics _ [] (by decide)⟩

/-- C2 counterexample: a run of length 2 on a receiver whose identifier is
the empty string, at the start of the block, is reported at line 0, column
0 (the `Last` dataclass defaults), not at the run's first statement, which
sits at line 5, column 3. -/
theorem c2_counterexample :
    check_stmts [appendStmt "" 5 3, appendStmt "" 6 3] [] = [ErrorUseListExtend 0 0] ∧
    (ErrorUseListExtend 0 0).line = 0 ∧ (appendStmt "" 5 3).line = 5 :=
  ⟨rfl, rfl, rfl⟩

/-- C2 (amended): provided every append receiver identifier is nonempty,
every diagnostic emitted by check_stmts carries code 113 and the line and
column of the first statement of a same-receiver append run of length at
least 2: the two statements `s1, s2` are adjacent, share their receiver,
the diagnostic's location is that of `s1`, and the statement before `s1`
(when one exists) is not an append on the same receiver, so `s1` indeed
starts the run. -/
theorem c2_anchor (stmts : List Statement) (e : Error) (good : goodNames stmts)
    (he : e ∈ check_stmts stmts []) :
    ∃ pre s1 s2 post n, stmts = pre ++ s1 :: s2 :: post ∧
      appendTarget s1 = some n ∧ appendTarget s2 = some n ∧
      e.code = 113 ∧ e.line = s1.line ∧ e.column = s1.column ∧
      (∀ p, pre.getLast? = some p → appendTarget p ≠ some n) := by
  rw [check_stmts, List.nil_append, (scan_spec stmts good).1] at he
  obtain ⟨pre, s1, s2, post, n, hsp, h1, h2, heq, hlast⟩ :=
    mem_specDiags_bound stmts.length stmts (le_refl _) e he
  refine ⟨pre, s1, s2, post, n, hsp, h1, h2, by rw [heq]; rfl, by rw [heq]; rfl,
    by rw [heq]; rfl, hlast⟩

/-- C2 witness: the two-statement run on receiver w. -/
theorem c2_anchor_witness :
    ∃ pre s1 s2 post n,
      [appendStmt "w" 1 0, appendStmt "w" 2 0] = pre ++ s1 :: s2 :: post ∧
      appendTarget s1 = some n ∧ appendTarget s2 = some n ∧
      (ErrorUseListExtend 1 0).code = 113 ∧
      (ErrorUseListExtend 1 0).line = s1.line ∧
      (ErrorUseListExtend 1 0).column = s1.column ∧
      (∀ p, pre.getLast? = some p → appendTarget p ≠ some n) :=
  c2_anchor [appendStmt "w" 1 0, appendStmt "w" 2 0] (ErrorUseListExtend 1 0)
    (by decide) (by decide)

/-- C10: the empty string is the "no active run" sentinel of the scan state,
so a block whose first statement is an append call on a receiver whose
identifier is the empty string immediately counts as continuing a run: a
code-113 diagnostic is emitted at line 0, column 0 (the Last dataclass
defaults), although no prior statement exists. -/
theorem c10_empty_name_sentinel (args : List Expr) (l c : Int) (rest : List Statement)
    (errors : List Error) :
    check_stmts (Statement.expressionStmt
        (Expr.callExpr (Expr.memberExpr (Expr.nameExpr "") "append") args) l c :: rest)
        errors =
      errors ++ ErrorUseListExtend 0 0 ::
        check_stmts_go { name := "", line := l, column := c, did_error := true } rest ∧
    (ErrorUseListExtend 0 0).code = 113 ∧ (ErrorUseListExtend 0 0).line = 0 ∧
    (ErrorUseListExtend 0 0).column = 0 :=
  ⟨rfl, rfl, rfl, rfl⟩

/-- A concrete FURB113 Error on file f.py, for examples. -/
def eFURB113 (line : Int) : Error :=
  { code := 113, pfx := "FURB", msg := "m", filename := some "f.py",
    line := line, column := 0 }

/-- C3 counterexample: the pattern `# noqa(: [A-Z]{3,4}\d{3})?$` is anchored
at the very end of the line, so a line whose bare marker is followed by a
trailing space is NOT suppressed, while the claim says trailing whitespace
is ignored. -/
theorem c3_counterexample :
    ignored_via_comment (fun _ => ["x = 1  # noqa "]) (Sum.inl (eFURB113 1)) =
      some false := rfl

/-- C3 (amended): ignored_via_comment returns true for a bare marker exactly
when the Error's cached source line ends with the literal characters
"# noqa" and nothing after them; any Error located on such a line is
suppressed, whatever its code, but a line with trailing whitespace after
the marker is not suppressed. -/
theorem c3_bare_suppression (e : Error) (f : String) (src : String → List String)
    (ln : String) (pre : List Char)
    (hf : e.filename = some f) (hne : f ≠ "")
    (hl : pyIndex (src f) (e.line - 1) = some ln)
    (hsuffix : ln.toList = pre ++ noqaBare) :
    ignored_via_comment src (Sum.inl e) = some true := by
  rw [ignored_line e f src ln hf hne hl, noqaVerdict_bare e ln pre hsuffix]

/-- C3 witness: a bare marker line suppresses the FURB113 Error on it. -/
theorem c3_bare_suppression_witness :
    ignored_via_comment (fun _ => ["x = 1  # noqa"]) (Sum.inl (eFURB113 1)) =
      some true :=
  c3_bare_suppression (eFURB113 1) "f.py" (fun _ => ["x = 1  # noqa"])
    "x = 1  # noqa" ['x', ' ', '=', ' ', '1', ' ', ' ']
    rfl (by decide) (by decide) (by decide)

/-- C4: on a line ending with "# noqa: " followed by a tag of 3-4 uppercase
letters and exactly 3 digits, the Error is suppressed exactly when the tag
equals its rendered prefix-plus-code string; an Error whose rendered string
differs from the tag is kept. -/
theorem c4_tagged_suppression (e : Error) (f : String) (src : String → List String)
    (ln : String) (pre t : List Char)
    (hf : e.filename = some f) (hne : f ≠ "")
    (hl : pyIndex (src f) (e.line - 1) = some ln)
    (hsuffix : ln.toList = pre ++ (noqaColon ++ t)) (ht : tagOk t = true) :
    ignored_via_comment src (Sum.inl e) = some (String.mk t == errorCodeStr e) ∧
    (ignored_via_comment src (Sum.inl e) = some true ↔ String.mk t = errorCodeStr e) := by
  have h := ignored_line e f src ln hf hne hl
  rw [noqaVerdict_tagged e ln pre t hsuffix ht] at h
  refine ⟨h, ?_⟩
  rw [h]
  constructor
  · intro hh
    exact eq_of_beq (Option.some.inj hh)
  · intro hh
    rw [hh]
    simp

/-- C4 witness: a FURB113 Error against the matching tag FURB113. -/
theorem c4_tagged_suppression_witness :
    (ignored_via_comment (fun _ => ["x()  # noqa: FURB113"]) (Sum.inl (eFURB113 1)) =
      some (String.mk ['F', 'U', 'R', 'B', '1', '1', '3'] == errorCodeStr (eFURB113 1))) ∧
    (ignored_via_comment (fun _ => ["x()  # noqa: FURB113"]) (Sum.inl (eFURB113 1)) =
        some true ↔
      String.mk ['F', 'U', 'R', 'B', '1', '1', '3'] = errorCodeStr (eFURB113 1)) :=
  c4_tagged_suppression (eFURB113 1) "f.py" (fun _ => ["x()  # noqa: FURB113"])
    "x()  # noqa: FURB113" ['x', '(', ')', ' ', ' ']
    ['F', 'U', 'R', 'B', '1', '1', '3']
    rfl (by decide) (by decide) (by decide) (by decide)

/-- C9: the line lookup of ignored_via_comment is Python indexing with no
bounds check: for an Error with a truthy filename, a line within 1..(number
of cached lines) reads line `line - 1` and returns a verdict; a line number
greater than the line count fails (IndexError, modelled as none); line 0
silently reads the file's last line through Python's negative indexing
instead of failing. -/
theorem c9_line_indexing (e : Error) (f : String) (src : String → List String)
    (hf : e.filename = some f) (hne : f ≠ "") :
    (1 ≤ e.line → e.line ≤ ((src f).length : Int) →
      ∃ ln, (src f).get? (e.line - 1).toNat = some ln ∧
        ignored_via_comment src (Sum.inl e) = some (noqaVerdict e ln)) ∧
    (((src f).length : Int) < e.line → ignored_via_comment src (Sum.inl e) = none) ∧
    (e.line = 0 → src f ≠ [] →
      ∃ ln, (src f).getLast? = some ln ∧
        ignored_via_comment src (Sum.inl e) = some (noqaVerdict e ln)) := by
  refine ⟨?_, ?_, ?_⟩
  · intro hlo hhi
    have hpi : pyIndex (src f) (e.line - 1) = (src f).get? (e.line - 1).toNat :=
      pyIndex_in_range _ _ (by omega)
    have hlt : (e.line - 1).toNat < (src f).length := by omega
    refine ⟨(src f).get ⟨(e.line - 1).toNat, hlt⟩, List.get?_eq_get hlt, ?_⟩
    exact ignored_line e f src _ hf hne (by rw [hpi]; exact List.get?_eq_get hlt)
  · intro hhi
    exact ignored_fail e f src hf hne (pyIndex_none_of_ge _ _ (by omega))
  · intro h0 hnil
    have hpi : pyIndex (src f) (e.line - 1) = (src f).getLast? := by
      rw [h0]
      exact pyIndex_neg_one _ hnil
    cases hgl : (src f).getLast? with
    | none =>
      rw [List.getLast?_eq_get?] at hgl
      have := List.get?_eq_none.mp hgl
      have hpos : 0 < (src f).length := List.length_pos.mpr hnil
      omega
    | some ln =>
      exact ⟨ln, rfl, ignored_line e f src ln hf hne (by rw [hpi, hgl])⟩

/-- C9 witness: an Error carrying line 0 against a one-line cached file. -/
theorem c9_line_indexing_witness :
    ((1 : Int) ≤ (eFURB113 0).line →
      (eFURB113 0).line ≤ (([("a  # noqa" : String)] : List String).length : Int) →
      ∃ ln, [("a  # noqa" : String)].get? ((eFURB113 0).line - 1).toNat = some ln ∧
        ignored_via_comment (fun _ => ["a  # noqa"]) (Sum.inl (eFURB113 0)) =
          some (noqaVerdict (eFURB113 0) ln)) ∧
    ((([("a  # noqa" : String)] : List String).length : Int) < (eFURB113 0).line →
      ignored_via_comment (fun _ => ["a  # noqa"]) (Sum.inl (eFURB113 0)) = none) ∧
    ((eFURB113 0).line = 0 → ([("a  # noqa" : String)] : List String) ≠ [] →
      ∃ ln, [("a  # noqa" : String)].getLast? = some ln ∧
        ignored_via_comment (fun _ => ["a  # noqa"]) (Sum.inl (eFURB113 0)) =
          some (noqaVerdict (eFURB113 0) ln)) :=
  c9_line_indexing (eFURB113 0) "f.py" (fun _ => ["a  # noqa"]) rfl (by decide)

/-- A FURB113 Error whose filename was never set, as a check emits it. -/
def eNoFile : Error :=
  { code := 113, pfx := "FURB", msg := "m", filename := none, line := 1, column := 0 }

/-- C5 counterexample: the claim says raw messages come first in the sorted
output regardless of the Diagnostic's filename, but when an Error with an
unset filename meets a raw message, Python compares the raw key
("", text) with the Error key ("", line, ...): the first components tie and
the second comparison is str-versus-int, a TypeError — sorted() raises and
produces no output at all. -/
theorem c5_counterexample :
    pySorted [Sum.inl eNoFile, Sum.inr "refurb: x"] = none := rfl

/-- C5 (amended): provided every Diagnostic in the collection carries a
truthy (nonempty) filename, sorting succeeds and the result is exactly the
raw messages — ordered by their text — followed by all the coded
Diagnostics, whatever the raw texts and the Diagnostics' fields. -/
theorem c5_raw_messages_first (items : List Item) (hn : ∀ y ∈ items, niceItem y) :
    ∃ (rs : List String) (es : List Error),
      pySorted items = some (rs.map Sum.inr ++ es.map Sum.inl) ∧
      (rs.map Sum.inr ++ es.map Sum.inl).Perm items ∧
      List.Sorted (fun a b : String => a ≤ b) rs := by
  obtain ⟨out, hout, hperm, hsort⟩ := pySorted_nice items hn
  have hn' : ∀ y ∈ out, niceItem y := fun y hy => hn y (hperm.subset hy)
  obtain ⟨rs, es, hsplit, hrs⟩ := sorted_split out hn' hsort
  refine ⟨rs, es, by rw [hout, hsplit], ?_, hrs⟩
  rw [← hsplit]
  exact hperm

/-- C5 witness: two raw messages and one filed Error. -/
theorem c5_raw_messages_first_witness :
    ∃ (rs : List String) (es : List Error),
      pySorted [Sum.inr "b", Sum.inl (eFURB113 1), Sum.inr "a"] =
        some (rs.map Sum.inr ++ es.map Sum.inl) ∧
      (rs.map Sum.inr ++ es.map Sum.inl).Perm
        [Sum.inr "b", Sum.inl (eFURB113 1), Sum.inr "a"] ∧
      List.Sorted (fun a b : String => a ≤ b) rs :=
  c5_raw_messages_first [Sum.inr "b", Sum.inl (eFURB113 1), Sum.inr "a"] (by decide)

/-- Two FURB113 Errors identical except for their message texts: they share
one sort key. -/
def eMsgA : Error :=
  { code := 113, pfx := "FURB", msg := "first", filename := some "f.py",
    line := 1, column := 0 }

def eMsgB : Error :=
  { code := 113, pfx := "FURB", msg := "second", filename := some "f.py",
    line := 1, column := 0 }

/-- C6 counterexample: sort_errors omits the message, so two distinct
Diagnostics differing only in message compare equal; the stable sort keeps
their input order and the two permutations of the same two-element set sort
to two different sequences — the induced order is not a strict total order
on Diagnostics. -/
theorem c6_counterexample :
    pySorted [Sum.inl eMsgA, Sum.inl eMsgB] = some [Sum.inl eMsgA, Sum.inl eMsgB] ∧
    pySorted [Sum.inl eMsgB, Sum.inl eMsgA] = some [Sum.inl eMsgB, Sum.inl eMsgA] ∧
    ([Sum.inl eMsgA, Sum.inl eMsgB] : List Item) ≠ [Sum.inl eMsgB, Sum.inl eMsgA] :=
  ⟨rfl, rfl, by decide⟩

/-- C6 (amended): on collections whose Diagnostics all carry truthy
filenames, the key order is a total preorder: sorting always succeeds,
sorting an already-sorted output leaves it unchanged (idempotence), and any
two permutations of the same collection sort to the identical sequence
provided no two distinct items share a sort key (the key omits the message,
so items differing only there keep their input order instead). -/
theorem c6_sort_deterministic (l1 l2 : List Item)
    (hn : ∀ y ∈ l1, niceItem y) (hperm : l1.Perm l2)
    (hinj : l1.Pairwise (fun a b => sort_errors a ≠ sort_errors b)) :
    ∃ out, pySorted l1 = some out ∧ pySorted l2 = some out ∧
      pySorted out = some out := by
  obtain ⟨o1, ho1, hp1, hs1⟩ := pySorted_nice l1 hn
  have hn2 : ∀ y ∈ l2, niceItem y := fun y hy => hn y (hperm.symm.subset hy)
  obtain ⟨o2, ho2, hp2, hs2⟩ := pySorted_nice l2 hn2
  have hsymm : ∀ {x y : Item}, sort_errors x ≠ sort_errors y →
      sort_errors y ≠ sort_errors x := fun h => h.symm
  have hinj1 : o1.Pairwise (fun a b => sort_errors a ≠ sort_errors b) :=
    (List.Perm.pairwise_iff hsymm hp1).mpr hinj
  have hinj2 : o2.Pairwise (fun a b => sort_errors a ≠ sort_errors b) :=
    (List.Perm.pairwise_iff hsymm (hp2.trans hperm.symm)).mpr hinj
  have hst1 := sorted_strict o1 hs1 hinj1
  have hst2 := sorted_strict o2 hs2 hinj2
  have hpp : o1.Perm o2 := hp1.trans (hperm.trans hp2.symm)
  have heq : o1 = o2 := List.eq_of_perm_of_sorted hpp hst1 hst2
  refine ⟨o1, ho1, ?_, pySorted_sorted_id o1 hs1⟩
  rw [← heq] at ho2
  exact ho2

/-- C6 witness: a raw message and a filed Error, in both orders. -/
theorem c6_sort_deterministic_witness :
    ∃ out, pySorted [Sum.inr "b", Sum.inl (eFURB113 1)] = some out ∧
      pySorted [Sum.inl (eFURB113 1), Sum.inr "b"] = some out ∧
      pySorted out = some out :=
  c6_sort_deterministic [Sum.inr "b", Sum.inl (eFURB113 1)]
    [Sum.inl (eFURB113 1), Sum.inr "b"] (by decide) (by decide) (by decide)

/-- C7: once a run reaches run_refurb (settings loaded, no help, version,
gen or explain short-circuit) and run_refurb returns its final
post-suppression post-sort collection, main's exit status is 1 exactly when
that collection is nonempty and 0 when it is empty. -/
theorem c7_exit_status (settings : Settings) (outcome : BuildOutcome)
    (src : String → List String) (errs : List Item)
    (h1 : settings.help = false) (h2 : settings.version = false)
    (h3 : settings.generate = false) (h4 : settings.explain = false)
    (hrun : run_refurb settings outcome src = some errs) :
    main' (Except.ok settings) outcome src = some (if errs.isEmpty then 0 else 1) ∧
    (main' (Except.ok settings) outcome src = some 0 ↔ errs = []) ∧
    (errs ≠ [] → main' (Except.ok settings) outcome src = some 1) := by
  have hm : main' (Except.ok settings) outcome src =
      some (if errs.isEmpty then 0 else 1) := by
    rw [main', h1, h2, h3, h4]
    simp only [Bool.false_eq_true, if_false]
    rw [hrun]
  refine ⟨hm, ?_, ?_⟩
  · rw [hm]
    by_cases he : errs = []
    · simp [he]
    · simp [he, List.isEmpty_eq_false_iff_exists_mem.mpr
        (List.exists_mem_of_ne_nil errs he)]
  · intro hne
    rw [hm]
    simp [List.isEmpty_eq_false_iff_exists_mem.mpr (List.exists_mem_of_ne_nil errs hne)]

/-- C7 witness: an empty final collection gives status 0. -/
theorem c7_exit_status_witness :
    (main' (Except.ok {}) (BuildOutcome.compileError []) (fun _ => []) =
      some (if ([] : List Item).isEmpty then 0 else 1)) ∧
    (main' (Except.ok {}) (BuildOutcome.compileError []) (fun _ => []) = some 0 ↔
      ([] : List Item) = []) ∧
    (([] : List Item) ≠ [] →
      main' (Except.ok {}) (BuildOutcome.compileError []) (fun _ => []) = some 1) :=
  c7_exit_status {} (BuildOutcome.compileError []) (fun _ => []) []
    rfl rfl rfl rfl rfl

/-- C8: when the engine's build step raises CompileError, run_refurb
returns exactly the engine's message texts as raw messages, each with a
leading "mypy: " rewritten to "refurb: ", and no coded Diagnostic at all;
the rewrite touches only a leading "mypy: ". -/
theorem c8_compile_error_raw_only (settings : Settings) (msgs : List String)
    (src : String → List String) :
    run_refurb settings (BuildOutcome.compileError msgs) src =
      some (msgs.map (fun m => Sum.inr (rewriteMypy m))) ∧
    (∀ x ∈ msgs.map (fun m => (Sum.inr (rewriteMypy m) : Item)), x.isRight = true) ∧
    rewriteMypy "mypy: cannot find module" = "refurb: cannot find module" ∧
    rewriteMypy "other: message" = "other: message" := by
  refine ⟨rfl, ?_, by decide, by decide⟩
  intro x hx
  obtain ⟨m, hm, hxeq⟩ := List.mem_map.mp hx
  rw [← hxeq]
  rfl
